import Mathlib

/-!
Shallow embedding of the VEGAS Monte-Carlo integrator notebook
(`Vegas.ipynb`).  Real-valued numpy arrays are modelled as total
functions `ℕ → ℚ` (vectors) and `ℕ → ℕ → ℚ` (row index ↦ column
index ↦ entry) over exact rationals; array shapes are passed
explicitly where the source reads them from numpy metadata, and
entries outside the declared shape are irrelevant junk (every
statement quantifies only over in-shape indices).  The shared
stateful random generator `self.rand` is modelled as a pure stream
`rand : ℕ → ℕ → ℚ` (draw number ↦ coordinate ↦ value) together with
a cursor `rngPos` counting how many vector draws have been consumed.
Raised exceptions are modelled with `Except`.
-/

/-- Row vectors of the model: dims-indexed rational entries. -/
abbrev RVec := ℕ → ℚ

/-- Matrices of the model: row index, then column (dimension) index. -/
abbrev RMat := ℕ → ℕ → ℚ

/-- Machine epsilon of IEEE-754 double precision, `np.finfo(float).eps`. -/
def eps : ℚ := 1 / 2 ^ 52

/-- Errors raised by the notebook code: `Exception("To low alpha")` in
`prepare_grid`, `Exception("Incorrect params")` in `integrate`, and the
`AttributeError` triggered by reading `self.bins` before training. -/
inductive VegasError where
  | tooLowAlpha
  | incorrectParams
  | attributeError
deriving DecidableEq

/-- Embedding of `np.mean` on a 1-d list. -/
def np_mean (l : List ℚ) : ℚ := l.sum / l.length

/-- Embedding of `np.var` on a 1-d list: the population variance (numpy
default `ddof = 0`), i.e. the mean of the squared deviations. -/
def np_var (l : List ℚ) : ℚ :=
  ((l.map (fun x => (x - np_mean l) ^ 2)).sum) / l.length

/-- Embedding of the cython helper `_get_selected_region(total_region, bins,
indices)`.  In the source `max_index = bins.shape[0] - 1`; since the edge
table allocated by `prepare_grid` has `bin_num + 1` rows, callers pass
`max_index = bin_num`.  For each dimension `dim`: `index = indices[dim]`,
`lower_index = index - 1` with wraparound to `max_index` when `index = 0`,
`tot_range = region[1,dim] - region[0,dim]`, and the two result rows are
`region[0,dim] + bins[lower_index,dim] * tot_range` and
`region[0,dim] + bins[index,dim] * tot_range`. -/
def get_selected_region (lo up : RVec) (max_index : ℕ) (bins : RMat)
    (indices : List ℕ) : RVec × RVec :=
  (fun dim =>
      lo dim +
        bins (if indices.getD dim 0 = 0 then max_index else indices.getD dim 0 - 1) dim *
          (up dim - lo dim),
   fun dim => lo dim + bins (indices.getD dim 0) dim * (up dim - lo dim))

/-- The `Vegas` class.  `lo`/`up` are the two rows of `self.region`, `func`
is the integrand, `rand`/`rngPos` model the seeded generator as a stream
plus cursor, `dims` is `self.dimensions` (set from `region.shape[1]` in
`__init__`), and `trained` holds `(self.bin_num, self.bins)` once
`prepare_grid` has committed them (`none` on a fresh instance, where
reading `self.bins` raises `AttributeError`). -/
structure Vegas where
  lo : RVec
  up : RVec
  func : RVec → ℚ
  rand : ℕ → RVec
  dims : ℕ
  rngPos : ℕ
  trained : Option (ℕ × RMat)

namespace Vegas

/-- The committed `self.bin_num` (junk `0` while untrained). -/
def bin_num (v : Vegas) : ℕ := (v.trained.getD (0, fun _ _ => 0)).1

/-- The committed `self.bins` (junk all-zero matrix while untrained). -/
def bins (v : Vegas) : RMat := (v.trained.getD (0, fun _ _ => 0)).2

/-- Embedding of the static method `Vegas.get_next_index(indices, limit)`:
walk the index vector from component 0, set each visited component to
`(x + 1) % limit`, and stop at the first component that did not wrap to 0. -/
def get_next_index : List ℕ → ℕ → List ℕ
  | [], _ => []
  | x :: xs, limit =>
    if (x + 1) % limit ≠ 0 then ((x + 1) % limit) :: xs
    else ((x + 1) % limit) :: get_next_index xs limit

/-- Method `get_selected_subregion(self, bins, indices)`: delegates to the
cython `_get_selected_region` on `self.region`.  `bin_num` is passed so the
helper knows `max_index = bins.shape[0] - 1 = bin_num`. -/
def get_selected_subregion (v : Vegas) (bin_num : ℕ) (bins : RMat)
    (indices : List ℕ) : RVec × RVec :=
  get_selected_region v.lo v.up bin_num bins indices

/-- Column means `np.mean(subintegrals, axis=0)` inside `resize_grid`; the
column length is the bin count `n`. -/
def resize_mean (n : ℕ) (subintegrals : RMat) (dim : ℕ) : ℚ :=
  (∑ i ∈ Finset.range n, subintegrals i dim) / n

/-- The guard `mean[mean == 0] = 1` of `resize_grid`. -/
def resize_gmean (n : ℕ) (subintegrals : RMat) (dim : ℕ) : ℚ :=
  if resize_mean n subintegrals dim = 0 then 1 else resize_mean n subintegrals dim

/-- The entries `rel_weights = 1/(alpha*mean + subintegrals)` of
`resize_grid` (after the zero-mean guard). -/
def resize_rel (n : ℕ) (subintegrals : RMat) (alpha : ℚ) (i dim : ℕ) : ℚ :=
  1 / (alpha * resize_gmean n subintegrals dim + subintegrals i dim)

/-- The column normalization
`rel_weights = rel_weights / np.sum(rel_weights, axis=0)`. -/
def resize_relN (n : ℕ) (subintegrals : RMat) (alpha : ℚ) (i dim : ℕ) : ℚ :=
  resize_rel n subintegrals alpha i dim /
    ∑ j ∈ Finset.range n, resize_rel n subintegrals alpha j dim

/-- The product `combined_weights = old_weights * rel_weights`. -/
def resize_combined (n : ℕ) (old_weights subintegrals : RMat) (alpha : ℚ)
    (i dim : ℕ) : ℚ :=
  old_weights i dim * resize_relN n subintegrals alpha i dim

/-- The second column normalization
`combined_weights = combined_weights / np.sum(combined_weights, axis=0)`. -/
def resize_combinedN (n : ℕ) (old_weights subintegrals : RMat) (alpha : ℚ)
    (i dim : ℕ) : ℚ :=
  resize_combined n old_weights subintegrals alpha i dim /
    ∑ j ∈ Finset.range n, resize_combined n old_weights subintegrals alpha j dim

/-- The in-place cumulative-sum loop `grid[i,dim] = grid[i-1,dim] + w` of
`resize_grid`: for `i = 0` the read of `grid[-1,dim]` hits the sentinel row
(the last row of the edge table), which the loop never writes, and for
`i > 0` the read sees the value just written, so the loop computes this
recurrence seeded with the sentinel value. -/
def grid_cum (sentinel : ℚ) (w : ℕ → ℚ) : ℕ → ℚ
  | 0 => sentinel + w 0
  | i + 1 => grid_cum sentinel w i + w (i + 1)

/-- Embedding of the static method `Vegas.resize_grid(grid, old_weights,
subintegrals, alpha)`.  `d` is the column count `dimensions =
len(grid[0,:])` and `n` the weight row count `bin_num`; the edge table
`grid` has `n + 1` rows and the final in-place loop assigns only rows
`0..n-1` of columns `0..d-1`, leaving every other entry of `grid` (in
particular the whole sentinel row `n`) unchanged. -/
def resize_grid (d n : ℕ) (grid old_weights subintegrals : RMat)
    (alpha : ℚ) : RMat × RMat :=
  let combined := resize_combinedN n old_weights subintegrals alpha
  (fun i dim =>
      if dim < d ∧ i < n then grid_cum (grid n dim) (fun j => combined j dim) i
      else grid i dim,
   combined)

/-- Rows of the initial edge table of `prepare_grid`: in exact arithmetic
`np.arange(1/bin_num, 1 + 1/bin_num, 1/bin_num)` produces exactly the
`bin_num` values `(i+1)/bin_num`, and `np.append(vals, 0)` adds the zero
sentinel as row `bin_num`; rows past the allocated array are junk 0. -/
def init_vals (bin_num : ℕ) (i : ℕ) : ℚ :=
  if i < bin_num then ((i : ℚ) + 1) / bin_num else 0

/-- The initial weight table `ws = np.ones(bin_num)/bin_num` of
`prepare_grid`, copied into every column. -/
def init_weights (bin_num : ℕ) : RMat := fun _ _ => 1 / (bin_num : ℚ)

/-- State threaded through one epoch of the training loop of
`prepare_grid`: the cursor `selected_bins`, the accumulator `distrib`, and
the number of random vectors drawn so far. -/
structure TrainState where
  sel : List ℕ
  distrib : RMat
  ctr : ℕ

/-- The accumulation `mean_importance += volume * np.abs(call_res) /
calls_per_bin` of the training loop, over the `calls_per_bin` draws made at
cursor positions `ctr, ctr+1, ...`, with the sampled point
`selected_zone[0,:] + rand_point * (selected_zone[1,:] -
selected_zone[0,:])`. -/
def mean_importance (v : Vegas) (cpb : ℕ) (zone : RVec × RVec)
    (volume : ℚ) (ctr : ℕ) : ℚ :=
  ∑ step ∈ Finset.range cpb,
    volume *
      |v.func (fun i => zone.1 i + v.rand (ctr + step) i * (zone.2 i - zone.1 i))| / cpb

/-- Body of the inner `for _ in range(total_bins)` loop of `prepare_grid`:
compute the selected zone and its volume, accumulate `mean_importance` over
the `calls_per_bin` draws, add it to `distrib[selected_bins[j], j]` for
every dimension `j` (the `zip` with `range(dimensions)`), advance the index
vector, and account for the random vectors consumed. -/
def train_bin_step (v : Vegas) (bin_num cpb : ℕ) (bins : RMat)
    (s : TrainState) : TrainState :=
  let zone := v.get_selected_subregion bin_num bins s.sel
  let volume := ∏ dim ∈ Finset.range v.dims, (zone.2 dim - zone.1 dim)
  let mi := v.mean_importance cpb zone volume s.ctr
  { sel := get_next_index s.sel bin_num
    distrib := fun i j =>
      if j < v.dims ∧ i = s.sel.getD j 0 then s.distrib i j + mi else s.distrib i j
    ctr := s.ctr + cpb }

/-- The `for _ in range(total_bins)` loop of one training epoch, started
from the freshly reset cursor `np.zeros(dimensions)` and accumulator
`np.zeros((bin_num, dimensions))`. -/
def epoch_fold (v : Vegas) (bin_num cpb : ℕ) (bins : RMat) (ctr : ℕ) :
    TrainState :=
  (v.train_bin_step bin_num cpb bins)^[bin_num ^ v.dims]
    ⟨List.replicate v.dims 0, fun _ _ => 0, ctr⟩

/-- One epoch of `prepare_grid`: reset `selected_bins` and `distrib`, run
the bin loop over all `bin_num ^ dims` combinations, then replace grid and
weights with the output of `resize_grid`. -/
def train_epoch (v : Vegas) (bin_num cpb : ℕ) (alpha : ℚ)
    (st : RMat × RMat × ℕ) : RMat × RMat × ℕ :=
  let s := v.epoch_fold bin_num cpb st.1 st.2.2
  let gw := resize_grid v.dims bin_num st.1 st.2.1 s.distrib alpha
  (gw.1, gw.2, s.ctr)

/-- The `for epoch in range(epochs)` loop of `prepare_grid`, started from
the uniform grid and weights and the current random cursor. -/
def train_loop (v : Vegas) (bin_num cpb : ℕ) (alpha : ℚ) (epochs : ℕ) :
    RMat × RMat × ℕ :=
  (v.train_epoch bin_num cpb alpha)^[epochs]
    (fun i _ => init_vals bin_num i, init_weights bin_num, v.rngPos)

/-- Embedding of `Vegas.prepare_grid`.  Validates `alpha`, builds the
uniform grid/weights, fixes `calls_per_bin = min(calls_per_epoch //
total_bins, 2)`, runs the epochs, and only then commits `self.bin_num`,
`self.dimensions` and `self.bins` (the trained weights are dropped). -/
def prepare_grid (v : Vegas) (bins_per_dimension epochs calls_per_epoch : ℕ)
    (alpha : ℚ) : Except VegasError Vegas :=
  if alpha ≤ eps then .error .tooLowAlpha
  else
    let bin_num := bins_per_dimension
    let total_bins := bin_num ^ v.dims
    let calls_per_bin := min (calls_per_epoch / total_bins) 2
    let res := v.train_loop bin_num calls_per_bin alpha epochs
    .ok { v with dims := v.dims, rngPos := res.2.2, trained := some (bin_num, res.1) }

/-- Exception semantics of a `prepare_grid` call on the caller's object: on
success the mutated instance, on a raised exception the instance exactly as
it was. -/
def run_prepare (v : Vegas) (bins_per_dimension epochs calls_per_epoch : ℕ)
    (alpha : ℚ) : Vegas :=
  match v.prepare_grid bins_per_dimension epochs calls_per_epoch alpha with
  | .ok v' => v'
  | .error _ => v

/-- State threaded through one evaluation of `integrate`: cursor, running
`integral`, and random vectors consumed. -/
structure IntegState where
  sel : List ℕ
  integral : ℚ
  ctr : ℕ

/-- The accumulation `little_integral += volume * call_res / calls_per_bin`
of the integration loop: the signed integrand value (no absolute value),
over the `calls_per_bin` draws made at cursor positions `ctr, ctr+1, ...`. -/
def little_integral (v : Vegas) (cpb : ℕ) (zone : RVec × RVec)
    (volume : ℚ) (ctr : ℕ) : ℚ :=
  ∑ step ∈ Finset.range cpb,
    volume *
      v.func (fun i => zone.1 i + v.rand (ctr + step) i * (zone.2 i - zone.1 i)) / cpb

/-- Body of the inner `for _ in range(total_bins)` loop of `integrate`:
like `train_bin_step` but accumulating the signed `little_integral` into
the running integral (no absolute value). -/
def integ_bin_step (v : Vegas) (bin_num cpb : ℕ) (bins : RMat)
    (s : IntegState) : IntegState :=
  let zone := v.get_selected_subregion bin_num bins s.sel
  let volume := ∏ dim ∈ Finset.range v.dims, (zone.2 dim - zone.1 dim)
  let little := v.little_integral cpb zone volume s.ctr
  { sel := get_next_index s.sel bin_num
    integral := s.integral + little
    ctr := s.ctr + cpb }

/-- One independent evaluation of `integrate`: reset the cursor, run the
bin loop over all combinations, return the accumulated integral and the
advanced random cursor. -/
def one_evaluation (v : Vegas) (bin_num cpb : ℕ) (bins : RMat) (ctr : ℕ) :
    ℚ × ℕ :=
  let s := (v.integ_bin_step bin_num cpb bins)^[bin_num ^ v.dims]
    ⟨List.replicate v.dims 0, 0, ctr⟩
  (s.integral, s.ctr)

/-- The `for _ in range(times)` loop of `integrate`, collecting the
`evaluations` list in order while threading the random cursor. -/
def run_evaluations (v : Vegas) (bin_num cpb : ℕ) (bins : RMat) :
    ℕ → ℕ → List ℚ × ℕ
  | 0, ctr => ([], ctr)
  | t + 1, ctr =>
    let e := v.one_evaluation bin_num cpb bins ctr
    let rest := v.run_evaluations bin_num cpb bins t e.2
    (e.1 :: rest.1, rest.2)

/-- Embedding of `Vegas.integrate(times, number_of_calls)`.  The source
returns `(np.mean(evaluations), np.var(evaluations)**0.5)`; since the
square root of a rational is not rational, the model returns the pair
`(np.mean(evaluations), np.var(evaluations))` — the second component is
the square of the source's second return value — together with the
advanced random cursor (the generator state the call leaves behind). -/
def integrate (v : Vegas) (times number_of_calls : ℤ) :
    Except VegasError ((ℚ × ℚ) × ℕ) :=
  if times ≤ 0 ∨ number_of_calls ≤ 0 then .error .incorrectParams
  else
    match v.trained with
    | none => .error .attributeError
    | some (bin_num, bins) =>
      let total_bins := bin_num ^ v.dims
      let calls_per_bin := max (number_of_calls.toNat / total_bins) 2
      let ev := v.run_evaluations bin_num calls_per_bin bins times.toNat v.rngPos
      .ok ((np_mean ev.1, np_var ev.1), ev.2)

end Vegas

/-- Concrete untrained instance used by the closed witnesses: the region
`[[0],[1]]` in one dimension, the constant integrand 1, and the constant
draw stream 1/2. -/
def testVegas : Vegas :=
  { lo := fun _ => 0
    up := fun _ => 1
    func := fun _ => 1
    rand := fun _ _ => 1 / 2
    dims := 1
    rngPos := 0
    trained := none }

/-- Concrete trained edge table used by the closed witnesses: two bins with
edges 1/2 and 1 and a zero sentinel row. -/
def testBins : RMat := fun i _ => if i = 0 then 1 / 2 else if i = 1 then 1 else 0

/-- Variant of `testVegas` with the edge table `testBins` committed as trained state. -/
def testTrained : Vegas := { testVegas with trained := some (2, testBins) }

namespace Vegas

/-- Little-endian mixed-radix valuation of an index vector: the number of
`advance` steps that separate the zero vector from it. -/
def digit_value (limit : ℕ) : List ℕ → ℕ
  | [] => 0
  | x :: xs => x + limit * digit_value limit xs

/-- Little-endian base-`limit` digit expansion of fixed length. -/
def digits_of (limit : ℕ) : ℕ → ℕ → List ℕ
  | 0, _ => []
  | d + 1, k => k % limit :: digits_of limit d (k / limit)

theorem get_next_index_length (limit : ℕ) (l : List ℕ) :
    (get_next_index l limit).length = l.length := by
  induction l with
  | nil => rfl
  | cons x xs ih =>
    simp only [get_next_index]
    split <;> simp [ih]

theorem get_next_index_bounded (limit : ℕ) (hl : 1 ≤ limit) (l : List ℕ)
    (hb : ∀ x ∈ l, x < limit) :
    ∀ x ∈ get_next_index l limit, x < limit := by
  induction l with
  | nil => intro x hx; simp [get_next_index] at hx
  | cons y ys ih =>
    have hys : ∀ x ∈ ys, x < limit := fun x hx => hb x (List.mem_cons_of_mem _ hx)
    intro x hx
    simp only [get_next_index] at hx
    split at hx <;> rcases List.mem_cons.mp hx with h | h
    · exact h ▸ Nat.mod_lt _ hl
    · exact hb x (List.mem_cons_of_mem _ h)
    · exact h ▸ Nat.mod_lt _ hl
    · exact ih hys x h

theorem digit_value_lt (limit : ℕ) (hl : 1 ≤ limit) (l : List ℕ)
    (hb : ∀ x ∈ l, x < limit) :
    digit_value limit l < limit ^ l.length := by
  induction l with
  | nil => simp [digit_value]
  | cons x xs ih =>
    have hx : x < limit := hb x (List.mem_cons_self _ _)
    have hv : digit_value limit xs < limit ^ xs.length :=
      ih fun y hy => hb y (List.mem_cons_of_mem _ hy)
    simp only [digit_value, List.length_cons]
    calc x + limit * digit_value limit xs
        < limit + limit * digit_value limit xs := by omega
      _ = limit * (digit_value limit xs + 1) := by ring
      _ ≤ limit * limit ^ xs.length := Nat.mul_le_mul_left _ hv
      _ = limit ^ (xs.length + 1) := (pow_succ' limit xs.length).symm

theorem get_next_index_value (limit : ℕ) (hl : 1 ≤ limit) (l : List ℕ)
    (hb : ∀ x ∈ l, x < limit) :
    digit_value limit (get_next_index l limit) =
      (digit_value limit l + 1) % limit ^ l.length := by
  induction l with
  | nil =>
    simp [get_next_index, digit_value]
  | cons x xs ih =>
    have hx : x < limit := hb x (List.mem_cons_self _ _)
    have hbxs : ∀ y ∈ xs, y < limit := fun y hy => hb y (List.mem_cons_of_mem _ hy)
    have hv : digit_value limit xs < limit ^ xs.length := digit_value_lt limit hl xs hbxs
    simp only [get_next_index, List.length_cons]
    have hmul : limit * (digit_value limit xs + 1) = limit * digit_value limit xs + limit := by
      ring
    have hmle : limit * (digit_value limit xs + 1) ≤ limit * limit ^ xs.length :=
      Nat.mul_le_mul_left _ hv
    have hpow : limit * limit ^ xs.length = limit ^ (xs.length + 1) :=
      (pow_succ' limit xs.length).symm
    by_cases h : (x + 1) % limit ≠ 0
    · have hx1 : x + 1 < limit := by
        rcases Nat.lt_or_ge (x + 1) limit with h' | h'
        · exact h'
        · have he : x + 1 = limit := by omega
          rw [he, Nat.mod_self] at h
          exact absurd rfl h
      rw [if_pos h]
      have hmod : (x + 1) % limit = x + 1 := Nat.mod_eq_of_lt hx1
      have hlt : x + limit * digit_value limit xs + 1 < limit ^ (xs.length + 1) := by
        omega
      simp only [digit_value]
      rw [hmod, Nat.mod_eq_of_lt hlt]
      omega
    · push_neg at h
      have hx1 : x + 1 = limit := by
        rcases Nat.lt_or_ge (x + 1) limit with h' | h'
        · rw [Nat.mod_eq_of_lt h'] at h; omega
        · omega
      rw [if_neg (by simpa using h)]
      simp only [digit_value, h, ih hbxs, Nat.zero_add]
      have hsum : x + limit * digit_value limit xs + 1 =
          limit * (digit_value limit xs + 1) := by omega
      rw [hsum, pow_succ' limit xs.length, Nat.mul_mod_mul_left]

theorem digit_value_inj (limit : ℕ) (l₁ l₂ : List ℕ)
    (hb₁ : ∀ x ∈ l₁, x < limit) (hb₂ : ∀ x ∈ l₂, x < limit)
    (hlen : l₁.length = l₂.length)
    (hv : digit_value limit l₁ = digit_value limit l₂) : l₁ = l₂ := by
  induction l₁ generalizing l₂ with
  | nil =>
    cases l₂ with
    | nil => rfl
    | cons y ys => simp at hlen
  | cons x xs ih =>
    cases l₂ with
    | nil => simp at hlen
    | cons y ys =>
      have hx : x < limit := hb₁ x (List.mem_cons_self _ _)
      have hy : y < limit := hb₂ y (List.mem_cons_self _ _)
      simp only [digit_value] at hv
      have hpos : 0 < limit := by omega
      have hxy : x = y := by
        have h1 : (x + limit * digit_value limit xs) % limit = x := by
          rw [Nat.add_mul_mod_self_left, Nat.mod_eq_of_lt hx]
        have h2 : (y + limit * digit_value limit ys) % limit = y := by
          rw [Nat.add_mul_mod_self_left, Nat.mod_eq_of_lt hy]
        rw [← h1, ← h2, hv]
      have hvv : digit_value limit xs = digit_value limit ys := by
        have h1 : (x + limit * digit_value limit xs) / limit = digit_value limit xs := by
          rw [Nat.add_mul_div_left _ _ hpos, Nat.div_eq_of_lt hx, Nat.zero_add]
        have h2 : (y + limit * digit_value limit ys) / limit = digit_value limit ys := by
          rw [Nat.add_mul_div_left _ _ hpos, Nat.div_eq_of_lt hy, Nat.zero_add]
        rw [← h1, ← h2, hv]
      have := ih ys (fun z hz => hb₁ z (List.mem_cons_of_mem _ hz))
        (fun z hz => hb₂ z (List.mem_cons_of_mem _ hz)) (by simpa using hlen) hvv
      rw [hxy, this]

theorem digits_of_length (limit d k : ℕ) : (digits_of limit d k).length = d := by
  induction d generalizing k with
  | zero => rfl
  | succ d ih => simp [digits_of, ih]

theorem digits_of_bounded (limit : ℕ) (hl : 1 ≤ limit) (d k : ℕ) :
    ∀ x ∈ digits_of limit d k, x < limit := by
  induction d generalizing k with
  | zero => intro x hx; simp [digits_of] at hx
  | succ d ih =>
    intro x hx
    simp only [digits_of] at hx
    rcases List.mem_cons.mp hx with h | h
    · exact h ▸ Nat.mod_lt _ hl
    · exact ih (k / limit) x h

theorem digit_value_digits_of (limit : ℕ) (hl : 1 ≤ limit) (d k : ℕ)
    (hk : k < limit ^ d) : digit_value limit (digits_of limit d k) = k := by
  induction d generalizing k with
  | zero =>
    simp only [pow_zero, Nat.lt_one_iff] at hk
    simp [digits_of, digit_value, hk]
  | succ d ih =>
    have hpos : 0 < limit := by omega
    have hdiv : k / limit < limit ^ d := by
      rw [Nat.div_lt_iff_lt_mul hpos]
      calc k < limit ^ (d + 1) := hk
        _ = limit ^ d * limit := pow_succ limit d
    simp only [digits_of, digit_value, ih _ hdiv]
    exact Nat.mod_add_div k limit

theorem digit_value_replicate_zero (limit d : ℕ) :
    digit_value limit (List.replicate d 0) = 0 := by
  induction d with
  | zero => rfl
  | succ d ih => simp [List.replicate_succ, digit_value, ih]

theorem get_next_index_iter (limit d : ℕ) (hl : 1 ≤ limit) (k : ℕ) :
    ((get_next_index · limit)^[k] (List.replicate d 0)).length = d ∧
    (∀ x ∈ (get_next_index · limit)^[k] (List.replicate d 0), x < limit) ∧
    digit_value limit ((get_next_index · limit)^[k] (List.replicate d 0)) =
      k % limit ^ d := by
  induction k with
  | zero =>
    refine ⟨List.length_replicate _ _, ?_, ?_⟩
    · intro x hx; rw [List.eq_of_mem_replicate hx]; omega
    · simp [digit_value_replicate_zero]
  | succ k ih =>
    obtain ⟨hlen, hb, hv⟩ := ih
    rw [Function.iterate_succ_apply']
    refine ⟨by rw [get_next_index_length, hlen], get_next_index_bounded limit hl _ hb, ?_⟩
    rw [get_next_index_value limit hl _ hb, hlen, hv, Nat.mod_add_mod]

end Vegas

/-- C3: starting `get_next_index` from the all-zero index vector and calling
it exactly `limit ^ dims` times visits every vector in `[0, limit)^dims`
exactly once and returns to the all-zero vector exactly on the last call,
never repeating a vector in fewer calls; each call performs the
little-endian mixed-radix increment, i.e. adds 1 to the valuation of the
vector modulo `limit ^ dims`. -/
theorem c3_get_next_index_cycle (limit d : ℕ) (hl : 1 ≤ limit) (hd : 1 ≤ d) :
    ((Vegas.get_next_index · limit)^[limit ^ d] (List.replicate d 0) =
        List.replicate d 0) ∧
    (∀ i j, i < limit ^ d → j < limit ^ d →
      (Vegas.get_next_index · limit)^[i] (List.replicate d 0) =
        (Vegas.get_next_index · limit)^[j] (List.replicate d 0) → i = j) ∧
    (∀ w : List ℕ, w.length = d → (∀ x ∈ w, x < limit) →
      ∃ k, k < limit ^ d ∧
        (Vegas.get_next_index · limit)^[k] (List.replicate d 0) = w) ∧
    (∀ k, 0 < k → k < limit ^ d →
      (Vegas.get_next_index · limit)^[k] (List.replicate d 0) ≠
        List.replicate d 0) ∧
    (∀ w : List ℕ, w.length = d → (∀ x ∈ w, x < limit) →
      Vegas.digit_value limit (Vegas.get_next_index w limit) =
        (Vegas.digit_value limit w + 1) % limit ^ d) := by
  have hzb : ∀ x ∈ List.replicate d (0 : ℕ), x < limit := by
    intro x hx; rw [List.eq_of_mem_replicate hx]; omega
  refine ⟨?_, ?_, ?_, ?_, ?_⟩
  · obtain ⟨hlen, hb, hv⟩ := Vegas.get_next_index_iter limit d hl (limit ^ d)
    refine Vegas.digit_value_inj limit _ _ hb hzb
      (by rw [hlen, List.length_replicate]) ?_
    rw [hv, Nat.mod_self, Vegas.digit_value_replicate_zero]
  · intro i j hi hj heq
    obtain ⟨_, _, hvi⟩ := Vegas.get_next_index_iter limit d hl i
    obtain ⟨_, _, hvj⟩ := Vegas.get_next_index_iter limit d hl j
    have : i % limit ^ d = j % limit ^ d := by rw [← hvi, ← hvj, heq]
    rwa [Nat.mod_eq_of_lt hi, Nat.mod_eq_of_lt hj] at this
  · intro w hwlen hwb
    refine ⟨Vegas.digit_value limit w, ?_, ?_⟩
    · have := Vegas.digit_value_lt limit hl w hwb
      rwa [hwlen] at this
    · obtain ⟨hlen, hb, hv⟩ :=
        Vegas.get_next_index_iter limit d hl (Vegas.digit_value limit w)
      refine Vegas.digit_value_inj limit _ _ hb hwb (by rw [hlen, hwlen]) ?_
      rw [hv, Nat.mod_eq_of_lt (by
        have := Vegas.digit_value_lt limit hl w hwb
        rwa [hwlen] at this)]
  · intro k hk hklt heq
    obtain ⟨_, _, hv⟩ := Vegas.get_next_index_iter limit d hl k
    rw [heq, Vegas.digit_value_replicate_zero, Nat.mod_eq_of_lt hklt] at hv
    omega
  · intro w hwlen hwb
    rw [Vegas.get_next_index_value limit hl w hwb, hwlen]

/-- Closed witness for C3, instantiated at `limit = 2`, `dims = 2`. -/
theorem c3_witness :
    1 ≤ 2 ∧ 1 ≤ 2 ∧
    ((Vegas.get_next_index · 2)^[2 ^ 2] (List.replicate 2 0) =
      List.replicate 2 0) :=
  ⟨by decide, by decide, (c3_get_next_index_cycle 2 2 (by decide) (by decide)).1⟩

namespace Vegas

theorem grid_cum_eq (sentinel : ℚ) (w : ℕ → ℚ) (i : ℕ) :
    grid_cum sentinel w i = sentinel + ∑ j ∈ Finset.range (i + 1), w j := by
  induction i with
  | zero => simp [grid_cum]
  | succ i ih =>
    rw [grid_cum, ih]
    conv_rhs => rw [Finset.sum_range_succ]
    ring

theorem resize_mean_nonneg (n : ℕ) (s : RMat) (dim : ℕ)
    (hs : ∀ i < n, 0 ≤ s i dim) : 0 ≤ resize_mean n s dim := by
  unfold resize_mean
  have hsum : 0 ≤ ∑ i ∈ Finset.range n, s i dim :=
    Finset.sum_nonneg fun i hi => hs i (Finset.mem_range.mp hi)
  exact div_nonneg hsum (Nat.cast_nonneg n)

theorem resize_gmean_pos (n : ℕ) (s : RMat) (dim : ℕ)
    (hs : ∀ i < n, 0 ≤ s i dim) : 0 < resize_gmean n s dim := by
  unfold resize_gmean
  split
  · norm_num
  · rename_i h
    exact lt_of_le_of_ne (resize_mean_nonneg n s dim hs) (Ne.symm h)

theorem resize_rel_pos (n : ℕ) (s : RMat) (alpha : ℚ) (i dim : ℕ)
    (ha : 0 < alpha) (hs : ∀ i < n, 0 ≤ s i dim) (hi : i < n) :
    0 < resize_rel n s alpha i dim := by
  unfold resize_rel
  exact one_div_pos.mpr
    (add_pos_of_pos_of_nonneg (mul_pos ha (resize_gmean_pos n s dim hs)) (hs i hi))

/-- Column normalization `f / np.sum(f, axis=0)` of a positive column of
length `n ≥ 1` is positive and sums to 1. -/
theorem normalize_col (n : ℕ) (hn : 1 ≤ n) (f : ℕ → ℚ) (hf : ∀ i < n, 0 < f i) :
    (∀ i < n, 0 < f i / ∑ j ∈ Finset.range n, f j) ∧
    (0 < ∑ j ∈ Finset.range n, f j) ∧
    ∑ i ∈ Finset.range n, f i / ∑ j ∈ Finset.range n, f j = 1 := by
  have hsum : 0 < ∑ j ∈ Finset.range n, f j :=
    Finset.sum_pos (fun i hi => hf i (Finset.mem_range.mp hi))
      ⟨0, Finset.mem_range.mpr hn⟩
  refine ⟨fun i hi => div_pos (hf i hi) hsum, hsum, ?_⟩
  rw [← Finset.sum_div, div_self (ne_of_gt hsum)]

/-- The combined positivity/normalization facts for one column of the
weight table returned by `resize_grid`. -/
theorem resize_col_facts (n : ℕ) (old_weights subintegrals : RMat) (alpha : ℚ)
    (dim : ℕ) (hn : 1 ≤ n) (ha : 0 < alpha)
    (hs : ∀ i < n, 0 ≤ subintegrals i dim)
    (hw : ∀ i < n, 0 < old_weights i dim) :
    (∀ i < n, 0 < resize_combinedN n old_weights subintegrals alpha i dim) ∧
    (∑ i ∈ Finset.range n, resize_combinedN n old_weights subintegrals alpha i dim = 1) ∧
    (∀ i < n, 0 < alpha * resize_gmean n subintegrals dim + subintegrals i dim) ∧
    (0 < ∑ j ∈ Finset.range n, resize_rel n subintegrals alpha j dim) ∧
    (0 < ∑ j ∈ Finset.range n, resize_combined n old_weights subintegrals alpha j dim) := by
  have hrel : ∀ i < n, 0 < resize_rel n subintegrals alpha i dim :=
    fun i hi => resize_rel_pos n subintegrals alpha i dim ha hs hi
  obtain ⟨hrelN, hrelsum, _⟩ := normalize_col n hn (fun i => resize_rel n subintegrals alpha i dim) hrel
  have hcomb : ∀ i < n, 0 < resize_combined n old_weights subintegrals alpha i dim := by
    intro i hi
    unfold resize_combined
    exact mul_pos (hw i hi) (hrelN i hi)
  obtain ⟨hcombN, hcombsum, hcombnorm⟩ :=
    normalize_col n hn (fun i => resize_combined n old_weights subintegrals alpha i dim) hcomb
  refine ⟨hcombN, hcombnorm, ?_, hrelsum, hcombsum⟩
  intro i hi
  exact add_pos_of_pos_of_nonneg (mul_pos ha (resize_gmean_pos n subintegrals dim hs)) (hs i hi)

theorem resize_grid_fst_def (d n : ℕ) (grid old_weights subintegrals : RMat)
    (alpha : ℚ) (i dim : ℕ) :
    (resize_grid d n grid old_weights subintegrals alpha).1 i dim =
      if dim < d ∧ i < n then
        grid_cum (grid n dim)
          (fun j => resize_combinedN n old_weights subintegrals alpha j dim) i
      else grid i dim := rfl

theorem resize_grid_fst_untouched (d n : ℕ) (grid old_weights subintegrals : RMat)
    (alpha : ℚ) (i dim : ℕ) (hi : n ≤ i) :
    (resize_grid d n grid old_weights subintegrals alpha).1 i dim = grid i dim := by
  rw [resize_grid_fst_def]
  exact if_neg (by omega)

theorem resize_grid_fst_row (d n : ℕ) (grid old_weights subintegrals : RMat)
    (alpha : ℚ) (i dim : ℕ) (hdim : dim < d) (hi : i < n) :
    (resize_grid d n grid old_weights subintegrals alpha).1 i dim =
      grid n dim + ∑ j ∈ Finset.range (i + 1),
        resize_combinedN n old_weights subintegrals alpha j dim := by
  rw [resize_grid_fst_def, if_pos ⟨hdim, hi⟩, grid_cum_eq]

end Vegas

/-- C2: for every `resize_grid` call whose distribution (`subintegrals`)
input is entry-wise non-negative, whose `alpha` is strictly positive, and
whose `old_weights` columns are positive and sum to 1, every column of the
returned weight table sums to 1 (exactly, in the rational model); moreover
no division by zero occurs: because a column whose mean is exactly 0 has
its mean replaced by 1, each denominator `alpha * mean + distribution[i]`
of `rel_weight` is strictly positive, and so are the two normalization
denominators. -/
theorem c2_resize_grid_weight_columns (d n : ℕ)
    (grid old_weights subintegrals : RMat) (alpha : ℚ)
    (hn : 1 ≤ n) (ha : 0 < alpha)
    (hs : ∀ dim < d, ∀ i < n, 0 ≤ subintegrals i dim)
    (hw : ∀ dim < d, (∀ i < n, 0 < old_weights i dim) ∧
      ∑ i ∈ Finset.range n, old_weights i dim = 1) :
    ∀ dim < d,
      (∑ i ∈ Finset.range n,
        (Vegas.resize_grid d n grid old_weights subintegrals alpha).2 i dim = 1) ∧
      (∀ i < n,
        0 < (Vegas.resize_grid d n grid old_weights subintegrals alpha).2 i dim) ∧
      (∀ i < n, 0 < alpha * Vegas.resize_gmean n subintegrals dim + subintegrals i dim) ∧
      (0 < ∑ j ∈ Finset.range n, Vegas.resize_rel n subintegrals alpha j dim) ∧
      (0 < ∑ j ∈ Finset.range n,
        Vegas.resize_combined n old_weights subintegrals alpha j dim) := by
  intro dim hdim
  obtain ⟨hpos, hsum, hdenom, hrels, hcombs⟩ :=
    Vegas.resize_col_facts n old_weights subintegrals alpha dim hn ha
      (hs dim hdim) (hw dim hdim).1
  exact ⟨hsum, hpos, hdenom, hrels, hcombs⟩

/-- Closed witness for C2: a single bin, unit old weight, zero distribution
(exercising the degenerate-column guard) and `alpha = 1`. -/
theorem c2_witness :
    1 ≤ 1 ∧ (0 : ℚ) < 1 ∧
    (∀ dim < 1,
      (∑ i ∈ Finset.range 1,
        (Vegas.resize_grid 1 1 (fun _ _ => 0) (fun _ _ => 1) (fun _ _ => 0) 1).2 i dim = 1) ∧
      (∀ i < 1,
        0 < (Vegas.resize_grid 1 1 (fun _ _ => 0) (fun _ _ => 1) (fun _ _ => 0) 1).2 i dim) ∧
      (∀ i < 1, 0 < (1 : ℚ) * Vegas.resize_gmean 1 (fun _ _ => 0) dim + (fun _ _ => (0 : ℚ)) i dim) ∧
      (0 < ∑ j ∈ Finset.range 1, Vegas.resize_rel 1 (fun _ _ => 0) 1 j dim) ∧
      (0 < ∑ j ∈ Finset.range 1,
        Vegas.resize_combined 1 (fun _ _ => 1) (fun _ _ => 0) 1 j dim)) :=
  ⟨le_refl 1, by norm_num,
    c2_resize_grid_weight_columns 1 1 (fun _ _ => 0) (fun _ _ => 1) (fun _ _ => 0) 1
      (le_refl 1) (by norm_num)
      (fun _ _ i _ => le_refl 0)
      (fun _ _ => ⟨fun _ _ => by norm_num, by simp⟩)⟩

namespace Vegas

theorem prepare_grid_ok (v : Vegas) (n e c : ℕ) (alpha : ℚ) (h : eps < alpha) :
    v.prepare_grid n e c alpha =
      .ok { v with
        rngPos := (v.train_loop n (min (c / n ^ v.dims) 2) alpha e).2.2,
        trained := some (n, (v.train_loop n (min (c / n ^ v.dims) 2) alpha e).1) } := by
  unfold prepare_grid
  rw [if_neg (not_le.mpr h)]

theorem run_prepare_ok (v : Vegas) (n e c : ℕ) (alpha : ℚ) (h : eps < alpha) :
    v.run_prepare n e c alpha =
      { v with
        rngPos := (v.train_loop n (min (c / n ^ v.dims) 2) alpha e).2.2,
        trained := some (n, (v.train_loop n (min (c / n ^ v.dims) 2) alpha e).1) } := by
  unfold run_prepare
  rw [prepare_grid_ok v n e c alpha h]

theorem run_prepare_bins (v : Vegas) (n e c : ℕ) (alpha : ℚ) (h : eps < alpha) :
    (v.run_prepare n e c alpha).bins =
      (v.train_loop n (min (c / n ^ v.dims) 2) alpha e).1 := by
  rw [run_prepare_ok v n e c alpha h]; rfl

theorem run_prepare_bin_num (v : Vegas) (n e c : ℕ) (alpha : ℚ) (h : eps < alpha) :
    (v.run_prepare n e c alpha).bin_num = n := by
  rw [run_prepare_ok v n e c alpha h]; rfl

theorem run_prepare_rngPos (v : Vegas) (n e c : ℕ) (alpha : ℚ) (h : eps < alpha) :
    (v.run_prepare n e c alpha).rngPos =
      (v.train_loop n (min (c / n ^ v.dims) 2) alpha e).2.2 := by
  rw [run_prepare_ok v n e c alpha h]

theorem run_prepare_dims (v : Vegas) (n e c : ℕ) (alpha : ℚ) (h : eps < alpha) :
    (v.run_prepare n e c alpha).dims = v.dims := by
  rw [run_prepare_ok v n e c alpha h]

theorem train_loop_zero (v : Vegas) (n cpb : ℕ) (alpha : ℚ) :
    v.train_loop n cpb alpha 0 =
      (fun i _ => init_vals n i, init_weights n, v.rngPos) := rfl

theorem train_loop_succ (v : Vegas) (n cpb : ℕ) (alpha : ℚ) (e : ℕ) :
    v.train_loop n cpb alpha (e + 1) =
      v.train_epoch n cpb alpha (v.train_loop n cpb alpha e) := by
  unfold train_loop
  rw [Function.iterate_succ_apply']

theorem train_epoch_fst (v : Vegas) (n cpb : ℕ) (alpha : ℚ) (st : RMat × RMat × ℕ) :
    (v.train_epoch n cpb alpha st).1 =
      (resize_grid v.dims n st.1 st.2.1
        (v.epoch_fold n cpb st.1 st.2.2).distrib alpha).1 := rfl

theorem train_epoch_snd (v : Vegas) (n cpb : ℕ) (alpha : ℚ) (st : RMat × RMat × ℕ) :
    (v.train_epoch n cpb alpha st).2.1 =
      (resize_grid v.dims n st.1 st.2.1
        (v.epoch_fold n cpb st.1 st.2.2).distrib alpha).2 := rfl

theorem train_epoch_ctr (v : Vegas) (n cpb : ℕ) (alpha : ℚ) (st : RMat × RMat × ℕ) :
    (v.train_epoch n cpb alpha st).2.2 =
      (v.epoch_fold n cpb st.1 st.2.2).ctr := rfl

theorem train_loop_sentinel (v : Vegas) (n cpb : ℕ) (alpha : ℚ) (e dim : ℕ) :
    (v.train_loop n cpb alpha e).1 n dim = 0 := by
  induction e with
  | zero =>
    rw [train_loop_zero]
    simp [init_vals]
  | succ e ih =>
    rw [train_loop_succ, train_epoch_fst,
      resize_grid_fst_untouched _ _ _ _ _ _ _ _ (le_refl n)]
    exact ih

end Vegas

/-- C10: the sentinel row of the edge table (row `bin_num`, which supplies
bin 0's lower edge via the wraparound index) is never written by
`resize_grid`, whose in-place update assigns only rows `0..bin_num-1`; it
is initialized to 0, and therefore stays exactly 0 in every dimension
after every number of epochs of a completed `prepare_grid` call. -/
theorem c10_sentinel_row (v : Vegas) (d n epochs cpe : ℕ) (alpha : ℚ)
    (grid old_weights subintegrals : RMat) (halpha : eps < alpha) :
    (∀ i dim, n ≤ i →
      (Vegas.resize_grid d n grid old_weights subintegrals alpha).1 i dim =
        grid i dim) ∧
    Vegas.init_vals n n = 0 ∧
    (∀ dim, (v.run_prepare n epochs cpe alpha).bins n dim = 0) := by
  refine ⟨fun i dim hi =>
    Vegas.resize_grid_fst_untouched d n grid old_weights subintegrals alpha i dim hi,
    by simp [Vegas.init_vals], ?_⟩
  intro dim
  rw [Vegas.run_prepare_bins v n epochs cpe alpha halpha]
  exact Vegas.train_loop_sentinel v n _ alpha epochs dim

/-- Closed witness for C10, instantiated at a one-bin one-epoch training
run of the concrete instance. -/
theorem c10_witness :
    eps < (1 : ℚ) ∧ (∀ dim, (testVegas.run_prepare 1 1 0 1).bins 1 dim = 0) :=
  ⟨by norm_num [eps],
    (c10_sentinel_row testVegas 1 1 1 0 1 (fun _ _ => 0) (fun _ _ => 0)
      (fun _ _ => 0) (by norm_num [eps])).2.2⟩

/-- C9: for every `bin_num ≥ 1`, at the start of training the grid and
weights are uniform — `bins[i,d] = (i+1)/bin_num` and
`weights[i,d] = 1/bin_num` — and training with `epochs = 0` commits
exactly this uniform grid to the model. -/
theorem c9_uniform_start (v : Vegas) (n cpe : ℕ) (alpha : ℚ)
    (hn : 1 ≤ n) (halpha : eps < alpha) :
    (∀ i < n, ∀ dim : ℕ, Vegas.init_vals n i = ((i : ℚ) + 1) / n ∧
      Vegas.init_weights n i dim = 1 / n) ∧
    (v.run_prepare n 0 cpe alpha).bin_num = n ∧
    (∀ i < n, ∀ dim : ℕ,
      (v.run_prepare n 0 cpe alpha).bins i dim = ((i : ℚ) + 1) / n) := by
  refine ⟨fun i hi dim => ⟨by simp [Vegas.init_vals, hi], rfl⟩,
    Vegas.run_prepare_bin_num v n 0 cpe alpha halpha, ?_⟩
  intro i hi dim
  rw [Vegas.run_prepare_bins v n 0 cpe alpha halpha, Vegas.train_loop_zero]
  simp [Vegas.init_vals, hi]

/-- Closed witness for C9 at `bin_num = 2`, `epochs = 0`. -/
theorem c9_witness :
    1 ≤ 2 ∧ eps < (1 : ℚ) ∧
    (∀ i < 2, ∀ dim : ℕ,
      (testVegas.run_prepare 2 0 7 1).bins i dim = ((i : ℚ) + 1) / 2) :=
  ⟨by decide, by norm_num [eps],
    by
      have h := (c9_uniform_start testVegas 2 7 1 (by decide) (by norm_num [eps])).2.2
      simpa using h⟩

/-- C7: parameter validation is atomic with respect to trained state.  A
`prepare_grid` call with `alpha ≤ eps` fails with the invalid-parameter
error and leaves the instance (including any previously-trained grid and
the random cursor) exactly as it was, and an `integrate` call with
`times ≤ 0` or `number_of_calls ≤ 0` fails with the invalid-parameter
error; both checks run before any state mutation or any integrand or
random draw. -/
theorem c7_validation_atomic (v : Vegas) (n e c : ℕ) (alpha : ℚ) (t nc : ℤ)
    (halpha : alpha ≤ eps) (hpar : t ≤ 0 ∨ nc ≤ 0) :
    v.prepare_grid n e c alpha = .error .tooLowAlpha ∧
    v.run_prepare n e c alpha = v ∧
    v.integrate t nc = .error .incorrectParams := by
  have h1 : v.prepare_grid n e c alpha = .error .tooLowAlpha := by
    unfold Vegas.prepare_grid
    rw [if_pos halpha]
  refine ⟨h1, ?_, ?_⟩
  · unfold Vegas.run_prepare
    rw [h1]
  · unfold Vegas.integrate
    rw [if_pos hpar]

/-- Closed witness for C7 at `alpha = 0`, `times = 0`, on an instance
holding trained state. -/
theorem c7_witness :
    (0 : ℚ) ≤ eps ∧ ((0 : ℤ) ≤ 0 ∨ (1 : ℤ) ≤ 0) ∧
    (testTrained.prepare_grid 3 5 9 0 = .error .tooLowAlpha ∧
      testTrained.run_prepare 3 5 9 0 = testTrained ∧
      testTrained.integrate 0 1 = .error .incorrectParams) :=
  ⟨by norm_num [eps], Or.inl (le_refl 0),
    c7_validation_atomic testTrained 3 5 9 0 0 1 (by norm_num [eps])
      (Or.inl (le_refl 0))⟩

/-- C8: `integrate` with valid parameters on an instance that has never
completed training fails with the precondition (`AttributeError`) error;
the parameter check happens first, so invalid parameters yield the
invalid-parameter error even on an untrained instance. -/
theorem c8_integrate_untrained (v : Vegas) (t nc t' nc' : ℤ)
    (htr : v.trained = none) (ht : 0 < t) (hnc : 0 < nc)
    (hpar : t' ≤ 0 ∨ nc' ≤ 0) :
    v.integrate t nc = .error .attributeError ∧
    v.integrate t' nc' = .error .incorrectParams := by
  constructor
  · unfold Vegas.integrate
    rw [if_neg (by omega), htr]
  · unfold Vegas.integrate
    rw [if_pos hpar]

/-- Closed witness for C8 on the untrained concrete instance. -/
theorem c8_witness :
    testVegas.trained = none ∧ (0 : ℤ) < 1 ∧
    (testVegas.integrate 1 1 = .error .attributeError ∧
      testVegas.integrate 0 2 = .error .incorrectParams) :=
  ⟨rfl, by decide,
    c8_integrate_untrained testVegas 1 1 0 2 rfl (by decide) (by decide)
      (Or.inl (le_refl 0))⟩

theorem get_selected_region_fst (lo up : RVec) (max_index : ℕ) (bins : RMat)
    (indices : List ℕ) (dim : ℕ) :
    (get_selected_region lo up max_index bins indices).1 dim =
      lo dim +
        bins (if indices.getD dim 0 = 0 then max_index else indices.getD dim 0 - 1) dim *
          (up dim - lo dim) := rfl

theorem get_selected_region_snd (lo up : RVec) (max_index : ℕ) (bins : RMat)
    (indices : List ℕ) (dim : ℕ) :
    (get_selected_region lo up max_index bins indices).2 dim =
      lo dim + bins (indices.getD dim 0) dim * (up dim - lo dim) := rfl

theorem getD_set_self (l : List ℕ) :
    ∀ (m a : ℕ), m < l.length → (l.set m a).getD m 0 = a := by
  induction l with
  | nil => intro m a h; simp at h
  | cons x xs ih =>
    intro m a h
    cases m with
    | zero => rfl
    | succ m =>
      simp only [List.set_cons_succ, List.getD_cons_succ]
      exact ih m a (by simpa using h)

/-- C4: for a grid whose per-dimension committed edges are monotonically
non-decreasing in `[0,1]` with final edge 1 and zero sentinel row, and for
every valid index vector, the box returned by `get_selected_subregion`
lies within the region, and as the coordinate of dimension `dim` ranges
over `0..bin_num-1` the per-dimension intervals exactly tile that
dimension's extent of the region: the first interval starts at the lower
region bound, consecutive intervals share an endpoint (no gaps or
overlaps), each interval is non-degenerate-ordered, and the last interval
ends at the upper region bound. -/
theorem c4_subregion_tiling (v : Vegas) (n : ℕ) (bins : RMat)
    (indices : List ℕ) (hn : 1 ≤ n)
    (hlen : indices.length = v.dims)
    (hidx : ∀ x ∈ indices, x < n)
    (hreg : ∀ dim < v.dims, v.lo dim ≤ v.up dim)
    (hsent : ∀ dim < v.dims, bins n dim = 0)
    (hmono : ∀ dim < v.dims, ∀ i, i + 1 < n → bins i dim ≤ bins (i + 1) dim)
    (h01 : ∀ dim < v.dims, ∀ i < n, 0 ≤ bins i dim ∧ bins i dim ≤ 1)
    (hlast : ∀ dim < v.dims, bins (n - 1) dim = 1) :
    ∀ dim < v.dims,
      (v.lo dim ≤ (v.get_selected_subregion n bins indices).1 dim ∧
        (v.get_selected_subregion n bins indices).1 dim ≤
          (v.get_selected_subregion n bins indices).2 dim ∧
        (v.get_selected_subregion n bins indices).2 dim ≤ v.up dim) ∧
      ((v.get_selected_subregion n bins (indices.set dim 0)).1 dim = v.lo dim) ∧
      ((v.get_selected_subregion n bins (indices.set dim (n - 1))).2 dim = v.up dim) ∧
      (∀ i, i + 1 < n →
        (v.get_selected_subregion n bins (indices.set dim i)).2 dim =
          (v.get_selected_subregion n bins (indices.set dim (i + 1))).1 dim) ∧
      (∀ i < n,
        (v.get_selected_subregion n bins (indices.set dim i)).1 dim ≤
          (v.get_selected_subregion n bins (indices.set dim i)).2 dim) := by
  intro dim hdim
  have hdl : dim < indices.length := by omega
  have hgetD : ∀ i : ℕ, (indices.set dim i).getD dim 0 = i :=
    fun i => getD_set_self indices dim i hdl
  have htr : 0 ≤ v.up dim - v.lo dim := by
    have := hreg dim hdim
    linarith
  have edge_lo_nonneg : ∀ i : ℕ, i < n →
      0 ≤ bins (if i = 0 then n else i - 1) dim := by
    intro i hi
    by_cases h0 : i = 0
    · rw [if_pos h0, hsent dim hdim]
    · rw [if_neg h0]
      exact (h01 dim hdim (i - 1) (by omega)).1
  have edge_le : ∀ i : ℕ, i < n →
      bins (if i = 0 then n else i - 1) dim ≤ bins i dim := by
    intro i hi
    by_cases h0 : i = 0
    · rw [if_pos h0, hsent dim hdim, h0]
      exact (h01 dim hdim 0 (by omega)).1
    · rw [if_neg h0]
      have hstep := hmono dim hdim (i - 1) (by omega)
      have he : i - 1 + 1 = i := by omega
      rwa [he] at hstep
  have hidxval : indices.getD dim 0 < n := by
    have hmem : indices.getD dim 0 ∈ indices := by
      rw [List.getD_eq_getElem indices 0 hdl]
      exact List.getElem_mem hdl
    exact hidx _ hmem
  have hsub : ∀ ind : List ℕ,
      (v.get_selected_subregion n bins ind).1 dim =
        v.lo dim +
          bins (if ind.getD dim 0 = 0 then n else ind.getD dim 0 - 1) dim *
            (v.up dim - v.lo dim) := fun _ => rfl
  have hsub2 : ∀ ind : List ℕ,
      (v.get_selected_subregion n bins ind).2 dim =
        v.lo dim + bins (ind.getD dim 0) dim * (v.up dim - v.lo dim) :=
    fun _ => rfl
  refine ⟨⟨?_, ?_, ?_⟩, ?_, ?_, ?_, ?_⟩
  · rw [hsub]
    have := mul_nonneg (edge_lo_nonneg _ hidxval) htr
    linarith
  · rw [hsub, hsub2]
    have := mul_le_mul_of_nonneg_right (edge_le _ hidxval) htr
    linarith
  · rw [hsub2]
    have hb1 : bins (indices.getD dim 0) dim ≤ 1 := (h01 dim hdim _ hidxval).2
    have := mul_le_mul_of_nonneg_right hb1 htr
    linarith
  · rw [hsub, hgetD, if_pos rfl, hsent dim hdim]
    ring
  · rw [hsub2, hgetD, hlast dim hdim]
    ring
  · intro i hi
    rw [hsub, hsub2, hgetD, hgetD, if_neg (by omega : ¬ i + 1 = 0)]
    have he : i + 1 - 1 = i := by omega
    rw [he]
  · intro i hi
    rw [hsub, hsub2, hgetD]
    have := mul_le_mul_of_nonneg_right (edge_le i hi) htr
    linarith

/-- Closed witness for C4 on the concrete two-bin trained grid. -/
theorem c4_witness :
    1 ≤ 2 ∧ [(0 : ℕ)].length = testTrained.dims ∧
    (∀ dim < testTrained.dims,
      (testTrained.lo dim ≤
          (testTrained.get_selected_subregion 2 testBins [0]).1 dim ∧
        (testTrained.get_selected_subregion 2 testBins [0]).1 dim ≤
          (testTrained.get_selected_subregion 2 testBins [0]).2 dim ∧
        (testTrained.get_selected_subregion 2 testBins [0]).2 dim ≤
          testTrained.up dim) ∧
      ((testTrained.get_selected_subregion 2 testBins ([0].set dim 0)).1 dim =
        testTrained.lo dim) ∧
      ((testTrained.get_selected_subregion 2 testBins ([0].set dim (2 - 1))).2 dim =
        testTrained.up dim) ∧
      (∀ i, i + 1 < 2 →
        (testTrained.get_selected_subregion 2 testBins ([0].set dim i)).2 dim =
          (testTrained.get_selected_subregion 2 testBins ([0].set dim (i + 1))).1 dim) ∧
      (∀ i < 2,
        (testTrained.get_selected_subregion 2 testBins ([0].set dim i)).1 dim ≤
          (testTrained.get_selected_subregion 2 testBins ([0].set dim i)).2 dim)) :=
  ⟨by decide, rfl,
    c4_subregion_tiling testTrained 2 testBins [0] (by decide) rfl
      (by intro x hx; simp at hx; omega)
      (fun dim _ => by norm_num [testTrained, testVegas])
      (fun dim _ => by norm_num [testBins])
      (fun dim _ i hi => by
        have : i = 0 := by omega
        subst this
        norm_num [testBins])
      (fun dim _ i hi => by
        interval_cases i <;> norm_num [testBins])
      (fun dim _ => by norm_num [testBins])⟩

namespace Vegas

/-- Invariant carried by the training loop of `prepare_grid`: the sentinel
row of the edge table is 0, each weight column is positive and sums to 1,
and each committed edge is the corresponding running sum of its weight
column. -/
def GridInv (d n : ℕ) (bins w : RMat) : Prop :=
  ∀ dim < d, bins n dim = 0 ∧ (∀ i < n, 0 < w i dim) ∧
    (∑ i ∈ Finset.range n, w i dim) = 1 ∧
    (∀ i < n, bins i dim = ∑ j ∈ Finset.range (i + 1), w j dim)

theorem grid_inv_init (d n : ℕ) (hn : 1 ≤ n) :
    GridInv d n (fun i _ => init_vals n i) (init_weights n) := by
  intro dim _
  have hnq : (0 : ℚ) < n := by exact_mod_cast hn
  refine ⟨by simp [init_vals], fun i _ => by
      simp only [init_weights]
      positivity, ?_, ?_⟩
  · simp only [init_weights]
    rw [Finset.sum_const, Finset.card_range, nsmul_eq_mul, mul_one_div,
      div_self (ne_of_gt hnq)]
  · intro i hi
    show init_vals n i = ∑ j ∈ Finset.range (i + 1), init_weights n j dim
    simp only [init_vals, if_pos hi, init_weights]
    rw [Finset.sum_const, Finset.card_range, nsmul_eq_mul, mul_one_div]
    push_cast
    ring

theorem grid_inv_bounds (d n : ℕ) (bins w : RMat) (h : GridInv d n bins w)
    (dim : ℕ) (hdim : dim < d) (i : ℕ) (hi : i < n) :
    0 < bins i dim ∧ bins i dim ≤ 1 := by
  obtain ⟨hsent, hwpos, hwsum, hpart⟩ := h dim hdim
  rw [hpart i hi]
  constructor
  · exact Finset.sum_pos
      (fun j hj => hwpos j (by have := Finset.mem_range.mp hj; omega))
      ⟨0, Finset.mem_range.mpr (by omega)⟩
  · rw [← hwsum]
    exact Finset.sum_le_sum_of_subset_of_nonneg
      (Finset.range_subset.mpr (by omega))
      (fun j hj _ => (hwpos j (Finset.mem_range.mp hj)).le)

theorem grid_inv_mono (d n : ℕ) (bins w : RMat) (h : GridInv d n bins w)
    (dim : ℕ) (hdim : dim < d) (i : ℕ) (hi : i + 1 < n) :
    bins i dim ≤ bins (i + 1) dim := by
  obtain ⟨hsent, hwpos, hwsum, hpart⟩ := h dim hdim
  rw [hpart i (by omega), hpart (i + 1) hi]
  have hrw : ∑ j ∈ Finset.range (i + 1 + 1), w j dim =
      ∑ j ∈ Finset.range (i + 1), w j dim + w (i + 1) dim :=
    Finset.sum_range_succ _ _
  rw [hrw]
  have := (hwpos (i + 1) hi).le
  linarith

theorem grid_inv_last (d n : ℕ) (bins w : RMat) (h : GridInv d n bins w)
    (hn : 1 ≤ n) (dim : ℕ) (hdim : dim < d) : bins (n - 1) dim = 1 := by
  obtain ⟨hsent, hwpos, hwsum, hpart⟩ := h dim hdim
  rw [hpart (n - 1) (by omega)]
  have he : n - 1 + 1 = n := by omega
  rw [he, hwsum]

theorem grid_inv_edge_le (d n : ℕ) (bins w : RMat) (h : GridInv d n bins w)
    (hn : 1 ≤ n) (dim : ℕ) (hdim : dim < d) (i : ℕ) (hi : i < n) :
    bins (if i = 0 then n else i - 1) dim ≤ bins i dim := by
  by_cases h0 : i = 0
  · rw [if_pos h0, (h dim hdim).1, h0]
    exact (grid_inv_bounds d n bins w h dim hdim 0 (by omega)).1.le
  · rw [if_neg h0]
    have hstep := grid_inv_mono d n bins w h dim hdim (i - 1) (by omega)
    have he : i - 1 + 1 = i := by omega
    rwa [he] at hstep

theorem zone_diff_nonneg (v : Vegas) (n : ℕ) (bins w : RMat) (sel : List ℕ)
    (h : GridInv v.dims n bins w) (hn : 1 ≤ n)
    (hreg : ∀ dim < v.dims, v.lo dim ≤ v.up dim)
    (hlen : sel.length = v.dims) (hb : ∀ x ∈ sel, x < n)
    (dim : ℕ) (hdim : dim < v.dims) :
    0 ≤ (v.get_selected_subregion n bins sel).2 dim -
      (v.get_selected_subregion n bins sel).1 dim := by
  have hdl : dim < sel.length := by omega
  have hidxval : sel.getD dim 0 < n := by
    have hmem : sel.getD dim 0 ∈ sel := by
      rw [List.getD_eq_getElem sel 0 hdl]
      exact List.getElem_mem hdl
    exact hb _ hmem
  have htr : 0 ≤ v.up dim - v.lo dim := by
    have := hreg dim hdim
    linarith
  have hedge := grid_inv_edge_le v.dims n bins w h hn dim hdim _ hidxval
  have h1 : (v.get_selected_subregion n bins sel).1 dim =
      v.lo dim +
        bins (if sel.getD dim 0 = 0 then n else sel.getD dim 0 - 1) dim *
          (v.up dim - v.lo dim) := rfl
  have h2 : (v.get_selected_subregion n bins sel).2 dim =
      v.lo dim + bins (sel.getD dim 0) dim * (v.up dim - v.lo dim) := rfl
  rw [h1, h2]
  have := mul_le_mul_of_nonneg_right hedge htr
  linarith

theorem volume_nonneg (v : Vegas) (n : ℕ) (bins w : RMat) (sel : List ℕ)
    (h : GridInv v.dims n bins w) (hn : 1 ≤ n)
    (hreg : ∀ dim < v.dims, v.lo dim ≤ v.up dim)
    (hlen : sel.length = v.dims) (hb : ∀ x ∈ sel, x < n) :
    0 ≤ ∏ dim ∈ Finset.range v.dims,
      ((v.get_selected_subregion n bins sel).2 dim -
        (v.get_selected_subregion n bins sel).1 dim) :=
  Finset.prod_nonneg fun dim hdim =>
    zone_diff_nonneg v n bins w sel h hn hreg hlen hb dim (Finset.mem_range.mp hdim)

theorem mean_importance_nonneg (v : Vegas) (cpb : ℕ) (zone : RVec × RVec)
    (volume : ℚ) (ctr : ℕ) (hvol : 0 ≤ volume) :
    0 ≤ v.mean_importance cpb zone volume ctr :=
  Finset.sum_nonneg fun step _ =>
    div_nonneg (mul_nonneg hvol (abs_nonneg _)) (Nat.cast_nonneg cpb)

theorem train_bin_step_sel (v : Vegas) (n cpb : ℕ) (bins : RMat) (st : TrainState) :
    (v.train_bin_step n cpb bins st).sel = get_next_index st.sel n := rfl

theorem train_bin_step_ctr (v : Vegas) (n cpb : ℕ) (bins : RMat) (st : TrainState) :
    (v.train_bin_step n cpb bins st).ctr = st.ctr + cpb := rfl

theorem train_bin_step_distrib (v : Vegas) (n cpb : ℕ) (bins : RMat)
    (st : TrainState) (i j : ℕ) :
    (v.train_bin_step n cpb bins st).distrib i j =
      if j < v.dims ∧ i = st.sel.getD j 0 then
        st.distrib i j +
          v.mean_importance cpb (v.get_selected_subregion n bins st.sel)
            (∏ dim ∈ Finset.range v.dims,
              ((v.get_selected_subregion n bins st.sel).2 dim -
                (v.get_selected_subregion n bins st.sel).1 dim)) st.ctr
      else st.distrib i j := rfl

theorem train_step_iter_Q (v : Vegas) (n cpb : ℕ) (bins w : RMat)
    (hinv : GridInv v.dims n bins w) (hn : 1 ≤ n)
    (hreg : ∀ dim < v.dims, v.lo dim ≤ v.up dim) :
    ∀ (m : ℕ) (st : TrainState),
      st.sel.length = v.dims → (∀ x ∈ st.sel, x < n) →
      (∀ i j, 0 ≤ st.distrib i j) →
      ((v.train_bin_step n cpb bins)^[m] st).sel.length = v.dims ∧
      (∀ x ∈ ((v.train_bin_step n cpb bins)^[m] st).sel, x < n) ∧
      (∀ i j, 0 ≤ ((v.train_bin_step n cpb bins)^[m] st).distrib i j) := by
  intro m
  induction m with
  | zero => intro st h1 h2 h3; exact ⟨h1, h2, h3⟩
  | succ m ih =>
    intro st h1 h2 h3
    rw [Function.iterate_succ_apply]
    apply ih
    · rw [train_bin_step_sel, get_next_index_length]
      exact h1
    · rw [train_bin_step_sel]
      exact get_next_index_bounded n hn st.sel h2
    · intro i j
      rw [train_bin_step_distrib]
      split
      · exact add_nonneg (h3 i j)
          (mean_importance_nonneg v cpb _ _ st.ctr
            (volume_nonneg v n bins w st.sel hinv hn hreg h1 h2))
      · exact h3 i j

theorem epoch_fold_nonneg (v : Vegas) (n cpb : ℕ) (bins w : RMat) (ctr : ℕ)
    (hinv : GridInv v.dims n bins w) (hn : 1 ≤ n)
    (hreg : ∀ dim < v.dims, v.lo dim ≤ v.up dim) :
    ∀ i j, 0 ≤ (v.epoch_fold n cpb bins ctr).distrib i j :=
  (train_step_iter_Q v n cpb bins w hinv hn hreg (n ^ v.dims)
    ⟨List.replicate v.dims 0, fun _ _ => 0, ctr⟩
    (List.length_replicate _ _)
    (fun x hx => by rw [List.eq_of_mem_replicate hx]; omega)
    (fun _ _ => le_refl 0)).2.2

theorem resize_grid_snd_def (d n : ℕ) (grid old_weights subintegrals : RMat)
    (alpha : ℚ) :
    (resize_grid d n grid old_weights subintegrals alpha).2 =
      resize_combinedN n old_weights subintegrals alpha := rfl

theorem resize_preserves_inv (d n : ℕ) (bins w s : RMat) (alpha : ℚ)
    (hinv : GridInv d n bins w) (hs : ∀ i j, 0 ≤ s i j) (ha : 0 < alpha)
    (hn : 1 ≤ n) :
    GridInv d n (resize_grid d n bins w s alpha).1
      (resize_grid d n bins w s alpha).2 := by
  intro dim hdim
  obtain ⟨hsent, hwpos, hwsum, hpart⟩ := hinv dim hdim
  obtain ⟨hpos, hsum, _, _, _⟩ :=
    resize_col_facts n w s alpha dim hn ha (fun i _ => hs i dim) hwpos
  refine ⟨?_, ?_, ?_, ?_⟩
  · rw [resize_grid_fst_untouched d n bins w s alpha n dim (le_refl n)]
    exact hsent
  · intro i hi
    rw [resize_grid_snd_def]
    exact hpos i hi
  · rw [resize_grid_snd_def]
    exact hsum
  · intro i hi
    rw [resize_grid_fst_row d n bins w s alpha i dim hdim hi, hsent, zero_add,
      resize_grid_snd_def]

theorem train_epoch_inv (v : Vegas) (n cpb : ℕ) (alpha : ℚ)
    (st : RMat × RMat × ℕ) (hinv : GridInv v.dims n st.1 st.2.1)
    (hn : 1 ≤ n) (ha : 0 < alpha)
    (hreg : ∀ dim < v.dims, v.lo dim ≤ v.up dim) :
    GridInv v.dims n (v.train_epoch n cpb alpha st).1
      (v.train_epoch n cpb alpha st).2.1 := by
  rw [train_epoch_fst, train_epoch_snd]
  exact resize_preserves_inv v.dims n st.1 st.2.1 _ alpha hinv
    (epoch_fold_nonneg v n cpb st.1 st.2.1 st.2.2 hinv hn hreg) ha hn

theorem train_loop_inv (v : Vegas) (n cpb : ℕ) (alpha : ℚ) (hn : 1 ≤ n)
    (ha : 0 < alpha) (hreg : ∀ dim < v.dims, v.lo dim ≤ v.up dim) (e : ℕ) :
    GridInv v.dims n (v.train_loop n cpb alpha e).1
      (v.train_loop n cpb alpha e).2.1 := by
  induction e with
  | zero =>
    rw [train_loop_zero]
    exact grid_inv_init v.dims n hn
  | succ e ih =>
    rw [train_loop_succ]
    exact train_epoch_inv v n cpb alpha _ ih hn ha hreg

end Vegas

/-- C1: for every `bins_per_dimension ≥ 1`, `dims ≥ 1` and `epochs ≥ 0`,
after a completed `prepare_grid` call on a well-formed region, in each
dimension the committed edge sequence `bins[0,d], ..., bins[bin_num-1,d]`
is monotonically non-decreasing, every edge lies in `(0, 1]`, and the last
edge equals 1 (exactly, in the rational model). -/
theorem c1_trained_grid_edges (v : Vegas) (n e c : ℕ) (alpha : ℚ)
    (hn : 1 ≤ n) (hd : 1 ≤ v.dims) (halpha : eps < alpha)
    (hreg : ∀ dim < v.dims, v.lo dim ≤ v.up dim) :
    (v.run_prepare n e c alpha).bin_num = n ∧
    ∀ dim < v.dims,
      (∀ i, i + 1 < n →
        (v.run_prepare n e c alpha).bins i dim ≤
          (v.run_prepare n e c alpha).bins (i + 1) dim) ∧
      (∀ i < n, 0 < (v.run_prepare n e c alpha).bins i dim ∧
        (v.run_prepare n e c alpha).bins i dim ≤ 1) ∧
      (v.run_prepare n e c alpha).bins (n - 1) dim = 1 := by
  have heps : (0 : ℚ) < eps := by norm_num [eps]
  have ha : 0 < alpha := lt_trans heps halpha
  have hinv := Vegas.train_loop_inv v n (min (c / n ^ v.dims) 2) alpha hn ha hreg e
  refine ⟨Vegas.run_prepare_bin_num v n e c alpha halpha, ?_⟩
  intro dim hdim
  rw [Vegas.run_prepare_bins v n e c alpha halpha]
  exact ⟨fun i hi => Vegas.grid_inv_mono _ _ _ _ hinv dim hdim i hi,
    fun i hi => Vegas.grid_inv_bounds _ _ _ _ hinv dim hdim i hi,
    Vegas.grid_inv_last _ _ _ _ hinv hn dim hdim⟩

/-- Closed witness for C1 at two bins, one dimension, one epoch. -/
theorem c1_witness :
    1 ≤ 2 ∧ 1 ≤ testVegas.dims ∧ eps < (1 : ℚ) ∧
    ((testVegas.run_prepare 2 1 8 1).bin_num = 2 ∧
    ∀ dim < testVegas.dims,
      (∀ i, i + 1 < 2 →
        (testVegas.run_prepare 2 1 8 1).bins i dim ≤
          (testVegas.run_prepare 2 1 8 1).bins (i + 1) dim) ∧
      (∀ i < 2, 0 < (testVegas.run_prepare 2 1 8 1).bins i dim ∧
        (testVegas.run_prepare 2 1 8 1).bins i dim ≤ 1) ∧
      (testVegas.run_prepare 2 1 8 1).bins (2 - 1) dim = 1) :=
  ⟨by decide, by decide, by norm_num [eps],
    c1_trained_grid_edges testVegas 2 1 8 1 (by decide) (by decide)
      (by norm_num [eps]) (fun dim _ => by norm_num [testVegas])⟩

namespace Vegas

theorem train_step_iter_ctr (v : Vegas) (n cpb : ℕ) (bins : RMat) :
    ∀ (m : ℕ) (st : TrainState),
      ((v.train_bin_step n cpb bins)^[m] st).ctr = st.ctr + m * cpb := by
  intro m
  induction m with
  | zero => intro st; simp
  | succ m ih =>
    intro st
    rw [Function.iterate_succ_apply', train_bin_step_ctr, ih]
    ring

theorem epoch_fold_ctr (v : Vegas) (n cpb : ℕ) (bins : RMat) (ctr : ℕ) :
    (v.epoch_fold n cpb bins ctr).ctr = ctr + n ^ v.dims * cpb :=
  train_step_iter_ctr v n cpb bins (n ^ v.dims) _

theorem train_epoch_rng (v : Vegas) (n cpb : ℕ) (alpha : ℚ)
    (st : RMat × RMat × ℕ) :
    (v.train_epoch n cpb alpha st).2.2 = st.2.2 + n ^ v.dims * cpb := by
  rw [train_epoch_ctr, epoch_fold_ctr]

theorem train_loop_rng (v : Vegas) (n cpb : ℕ) (alpha : ℚ) :
    ∀ e : ℕ, (v.train_loop n cpb alpha e).2.2 =
      v.rngPos + e * (n ^ v.dims * cpb) := by
  intro e
  induction e with
  | zero => rw [train_loop_zero]; simp
  | succ e ih =>
    rw [train_loop_succ, train_epoch_rng, ih]
    ring

theorem integrate_ok (v : Vegas) (t nc : ℤ) (m : ℕ) (b : RMat)
    (htr : v.trained = some (m, b)) (ht : 0 < t) (hnc : 0 < nc) :
    v.integrate t nc = .ok
      ((np_mean (v.run_evaluations m (max (nc.toNat / m ^ v.dims) 2) b t.toNat v.rngPos).1,
        np_var (v.run_evaluations m (max (nc.toNat / m ^ v.dims) 2) b t.toNat v.rngPos).1),
       (v.run_evaluations m (max (nc.toNat / m ^ v.dims) 2) b t.toNat v.rngPos).2) := by
  unfold integrate
  rw [if_neg (by omega), htr]

theorem integ_bin_step_sel (v : Vegas) (n cpb : ℕ) (bins : RMat) (st : IntegState) :
    (v.integ_bin_step n cpb bins st).sel = get_next_index st.sel n := rfl

theorem integ_bin_step_ctr (v : Vegas) (n cpb : ℕ) (bins : RMat) (st : IntegState) :
    (v.integ_bin_step n cpb bins st).ctr = st.ctr + cpb := rfl

/-- The contribution of one bin combination to one evaluation of
`integrate`: the `little_integral` of the selected zone, with the zone
volume `np.prod(selected_zone[1,:] - selected_zone[0,:])`. -/
def integ_bin_value (v : Vegas) (n cpb : ℕ) (bins : RMat) (sel : List ℕ)
    (ctr : ℕ) : ℚ :=
  v.little_integral cpb (v.get_selected_subregion n bins sel)
    (∏ dim ∈ Finset.range v.dims,
      ((v.get_selected_subregion n bins sel).2 dim -
        (v.get_selected_subregion n bins sel).1 dim)) ctr

theorem integ_bin_step_integral (v : Vegas) (n cpb : ℕ) (bins : RMat)
    (st : IntegState) :
    (v.integ_bin_step n cpb bins st).integral =
      st.integral + integ_bin_value v n cpb bins st.sel st.ctr := rfl

theorem integ_iter (v : Vegas) (n cpb : ℕ) (bins : RMat) :
    ∀ (m : ℕ) (st : IntegState),
      ((v.integ_bin_step n cpb bins)^[m] st).integral =
        st.integral + ∑ i ∈ Finset.range m,
          integ_bin_value v n cpb bins ((get_next_index · n)^[i] st.sel)
            (st.ctr + i * cpb) ∧
      ((v.integ_bin_step n cpb bins)^[m] st).ctr = st.ctr + m * cpb ∧
      ((v.integ_bin_step n cpb bins)^[m] st).sel = (get_next_index · n)^[m] st.sel := by
  intro m
  induction m with
  | zero => intro st; simp
  | succ m ih =>
    intro st
    obtain ⟨h1, h2, h3⟩ := ih st
    rw [Function.iterate_succ_apply', integ_bin_step_integral,
      integ_bin_step_ctr, integ_bin_step_sel, h1, h2, h3]
    refine ⟨?_, by ring, ?_⟩
    · rw [Finset.sum_range_succ]
      ring
    · exact (Function.iterate_succ_apply' (fun l => get_next_index l n) m st.sel).symm

theorem one_evaluation_fst (v : Vegas) (n cpb : ℕ) (bins : RMat) (ctr : ℕ) :
    (v.one_evaluation n cpb bins ctr).1 =
      ∑ i ∈ Finset.range (n ^ v.dims),
        integ_bin_value v n cpb bins
          ((get_next_index · n)^[i] (List.replicate v.dims 0)) (ctr + i * cpb) := by
  have h := (integ_iter v n cpb bins (n ^ v.dims)
    ⟨List.replicate v.dims 0, 0, ctr⟩).1
  simpa using h

theorem one_evaluation_snd (v : Vegas) (n cpb : ℕ) (bins : RMat) (ctr : ℕ) :
    (v.one_evaluation n cpb bins ctr).2 = ctr + n ^ v.dims * cpb := by
  have h := (integ_iter v n cpb bins (n ^ v.dims)
    ⟨List.replicate v.dims 0, 0, ctr⟩).2.1
  simpa [Nat.mul_comm] using h

theorem run_evaluations_snd (v : Vegas) (n cpb : ℕ) (bins : RMat) :
    ∀ (t : ℕ) (ctr : ℕ),
      (v.run_evaluations n cpb bins t ctr).2 = ctr + t * (n ^ v.dims * cpb) := by
  intro t
  induction t with
  | zero => intro ctr; simp [run_evaluations]
  | succ t ih =>
    intro ctr
    show (v.run_evaluations n cpb bins t
      (v.one_evaluation n cpb bins ctr).2).2 = _
    rw [ih, one_evaluation_snd]
    ring

end Vegas

/-- C5: the number of integrand draws per bin is asymmetric between the two
phases.  A completed training run consumes exactly `epochs * total_bins *
calls_per_bin` random vectors with `calls_per_bin = min(calls_per_epoch //
total_bins, 2)` — never more than 2 draws per bin — while a successful
integration run consumes exactly `times * total_bins * calls_per_bin` with
`calls_per_bin = max(number_of_calls // total_bins, 2)` — never fewer than
2 draws per bin. -/
theorem c5_calls_per_bin_asymmetry (v u : Vegas) (n e c : ℕ) (alpha : ℚ)
    (t nc : ℤ) (m : ℕ) (b : RMat)
    (hn : 1 ≤ n) (halpha : eps < alpha)
    (htr : u.trained = some (m, b)) (ht : 0 < t) (hnc : 0 < nc) :
    (min (c / n ^ v.dims) 2 ≤ 2 ∧
      (v.run_prepare n e c alpha).rngPos =
        v.rngPos + e * (n ^ v.dims * min (c / n ^ v.dims) 2)) ∧
    (2 ≤ max (nc.toNat / m ^ u.dims) 2 ∧
      u.integrate t nc = .ok
        ((np_mean (u.run_evaluations m (max (nc.toNat / m ^ u.dims) 2) b
            t.toNat u.rngPos).1,
          np_var (u.run_evaluations m (max (nc.toNat / m ^ u.dims) 2) b
            t.toNat u.rngPos).1),
         u.rngPos + t.toNat * (m ^ u.dims * max (nc.toNat / m ^ u.dims) 2))) := by
  refine ⟨⟨min_le_right _ _, ?_⟩, le_max_right _ _, ?_⟩
  · rw [Vegas.run_prepare_rngPos v n e c alpha halpha, Vegas.train_loop_rng]
  · rw [Vegas.integrate_ok u t nc m b htr ht hnc,
      Vegas.run_evaluations_snd u m (max (nc.toNat / m ^ u.dims) 2) b t.toNat u.rngPos]

/-- Closed witness for C5: one training epoch of the fresh instance and one
integration pass of the trained instance. -/
theorem c5_witness :
    1 ≤ 2 ∧ eps < (1 : ℚ) ∧ testTrained.trained = some (2, testBins) ∧
    (0 : ℤ) < 1 ∧ (0 : ℤ) < 3 ∧
    ((min (8 / 2 ^ testVegas.dims) 2 ≤ 2 ∧
      (testVegas.run_prepare 2 1 8 1).rngPos =
        testVegas.rngPos + 1 * (2 ^ testVegas.dims * min (8 / 2 ^ testVegas.dims) 2)) ∧
    (2 ≤ max ((3 : ℤ).toNat / 2 ^ testTrained.dims) 2 ∧
      testTrained.integrate 1 3 = .ok
        ((np_mean (testTrained.run_evaluations 2
            (max ((3 : ℤ).toNat / 2 ^ testTrained.dims) 2) testBins
            (1 : ℤ).toNat testTrained.rngPos).1,
          np_var (testTrained.run_evaluations 2
            (max ((3 : ℤ).toNat / 2 ^ testTrained.dims) 2) testBins
            (1 : ℤ).toNat testTrained.rngPos).1),
         testTrained.rngPos +
           (1 : ℤ).toNat * (2 ^ testTrained.dims *
             max ((3 : ℤ).toNat / 2 ^ testTrained.dims) 2)))) :=
  ⟨by decide, by norm_num [eps], rfl, by decide, by decide,
    c5_calls_per_bin_asymmetry testVegas testTrained 2 1 8 1 1 3 2 testBins
      (by decide) (by norm_num [eps]) rfl (by decide) (by decide)⟩

theorem list_map_range_sum (f : ℕ → ℚ) : ∀ n : ℕ,
    ((List.range n).map f).sum = ∑ i ∈ Finset.range n, f i := by
  intro n
  induction n with
  | zero => rfl
  | succ n ih =>
    rw [List.range_succ, List.map_append, List.sum_append, ih,
      Finset.sum_range_succ]
    simp

namespace Vegas

theorem run_evaluations_fst (v : Vegas) (n cpb : ℕ) (bins : RMat) :
    ∀ (t : ℕ) (ctr : ℕ),
      (v.run_evaluations n cpb bins t ctr).1 =
        (List.range t).map (fun k =>
          ∑ i ∈ Finset.range (n ^ v.dims),
            integ_bin_value v n cpb bins
              ((get_next_index · n)^[i] (List.replicate v.dims 0))
              (ctr + k * (n ^ v.dims * cpb) + i * cpb)) := by
  intro t
  induction t with
  | zero => intro ctr; rfl
  | succ t ih =>
    intro ctr
    show (v.one_evaluation n cpb bins ctr).1 ::
        (v.run_evaluations n cpb bins t (v.one_evaluation n cpb bins ctr).2).1 = _
    rw [one_evaluation_snd, ih, List.range_succ_eq_map, List.map_cons,
      List.map_map]
    congr 1
    · rw [one_evaluation_fst]
      apply Finset.sum_congr rfl
      intro i _
      congr 1
      ring
    · have hfun : (fun k =>
          ∑ i ∈ Finset.range (n ^ v.dims),
            integ_bin_value v n cpb bins
              ((get_next_index · n)^[i] (List.replicate v.dims 0))
              (ctr + n ^ v.dims * cpb + k * (n ^ v.dims * cpb) + i * cpb)) =
          ((fun k =>
            ∑ i ∈ Finset.range (n ^ v.dims),
              integ_bin_value v n cpb bins
                ((get_next_index · n)^[i] (List.replicate v.dims 0))
                (ctr + k * (n ^ v.dims * cpb) + i * cpb)) ∘ Nat.succ) := by
        funext k
        simp only [Function.comp_apply, Nat.succ_eq_add_one]
        apply Finset.sum_congr rfl
        intro i _
        congr 1
        ring
      rw [hfun]

end Vegas

/-- C6: for every successful `integrate(times, number_of_calls)` call, the
returned pair is `(mean of the times recorded evaluations, population
variance of those evaluations)` — where the variance divides by `times`
(no Bessel correction; in the source the second return value is the square
root of this quantity, which the rational model returns un-rooted) — and
each evaluation is the sum over all bin combinations, in enumerator order,
of the little integrals `volume * f(point) / calls_per_bin` using the
signed integrand value (no absolute value). -/
theorem c6_integrate_result (v : Vegas) (t nc : ℤ) (m : ℕ) (b : RMat)
    (htr : v.trained = some (m, b)) (ht : 0 < t) (hnc : 0 < nc) :
    v.integrate t nc = .ok
      (((∑ k ∈ Finset.range t.toNat,
          (∑ i ∈ Finset.range (m ^ v.dims),
            Vegas.integ_bin_value v m (max (nc.toNat / m ^ v.dims) 2) b
              ((Vegas.get_next_index · m)^[i] (List.replicate v.dims 0))
              (v.rngPos + k * (m ^ v.dims * max (nc.toNat / m ^ v.dims) 2) +
                i * max (nc.toNat / m ^ v.dims) 2))) / (t.toNat : ℚ),
        (∑ k ∈ Finset.range t.toNat,
          ((∑ i ∈ Finset.range (m ^ v.dims),
            Vegas.integ_bin_value v m (max (nc.toNat / m ^ v.dims) 2) b
              ((Vegas.get_next_index · m)^[i] (List.replicate v.dims 0))
              (v.rngPos + k * (m ^ v.dims * max (nc.toNat / m ^ v.dims) 2) +
                i * max (nc.toNat / m ^ v.dims) 2)) -
           (∑ j ∈ Finset.range t.toNat,
            (∑ i ∈ Finset.range (m ^ v.dims),
              Vegas.integ_bin_value v m (max (nc.toNat / m ^ v.dims) 2) b
                ((Vegas.get_next_index · m)^[i] (List.replicate v.dims 0))
                (v.rngPos + j * (m ^ v.dims * max (nc.toNat / m ^ v.dims) 2) +
                  i * max (nc.toNat / m ^ v.dims) 2))) / (t.toNat : ℚ)) ^ 2) /
          (t.toNat : ℚ)),
       v.rngPos + t.toNat * (m ^ v.dims * max (nc.toNat / m ^ v.dims) 2)) := by
  rw [Vegas.integrate_ok v t nc m b htr ht hnc]
  rw [Vegas.run_evaluations_fst v m (max (nc.toNat / m ^ v.dims) 2) b t.toNat v.rngPos]
  rw [Vegas.run_evaluations_snd v m (max (nc.toNat / m ^ v.dims) 2) b t.toNat v.rngPos]
  have hlen : ((List.range t.toNat).map (fun k =>
      ∑ i ∈ Finset.range (m ^ v.dims),
        Vegas.integ_bin_value v m (max (nc.toNat / m ^ v.dims) 2) b
          ((Vegas.get_next_index · m)^[i] (List.replicate v.dims 0))
          (v.rngPos + k * (m ^ v.dims * max (nc.toNat / m ^ v.dims) 2) +
            i * max (nc.toNat / m ^ v.dims) 2))).length = t.toNat := by
    rw [List.length_map, List.length_range]
  have hmean : np_mean ((List.range t.toNat).map (fun k =>
      ∑ i ∈ Finset.range (m ^ v.dims),
        Vegas.integ_bin_value v m (max (nc.toNat / m ^ v.dims) 2) b
          ((Vegas.get_next_index · m)^[i] (List.replicate v.dims 0))
          (v.rngPos + k * (m ^ v.dims * max (nc.toNat / m ^ v.dims) 2) +
            i * max (nc.toNat / m ^ v.dims) 2))) =
      (∑ k ∈ Finset.range t.toNat,
        (∑ i ∈ Finset.range (m ^ v.dims),
          Vegas.integ_bin_value v m (max (nc.toNat / m ^ v.dims) 2) b
            ((Vegas.get_next_index · m)^[i] (List.replicate v.dims 0))
            (v.rngPos + k * (m ^ v.dims * max (nc.toNat / m ^ v.dims) 2) +
              i * max (nc.toNat / m ^ v.dims) 2))) / (t.toNat : ℚ) := by
    rw [np_mean, list_map_range_sum, hlen]
  rw [np_var, hmean, hlen, List.map_map, list_map_range_sum]
  rfl

/-- Closed witness for C6 at a single evaluation of the concrete trained
instance. -/
theorem c6_witness :
    testTrained.trained = some (2, testBins) ∧ (0 : ℤ) < 1 ∧
    testTrained.integrate 1 1 = .ok
      (((∑ k ∈ Finset.range (1 : ℤ).toNat,
          (∑ i ∈ Finset.range (2 ^ testTrained.dims),
            Vegas.integ_bin_value testTrained 2
              (max ((1 : ℤ).toNat / 2 ^ testTrained.dims) 2) testBins
              ((Vegas.get_next_index · 2)^[i] (List.replicate testTrained.dims 0))
              (testTrained.rngPos +
                k * (2 ^ testTrained.dims * max ((1 : ℤ).toNat / 2 ^ testTrained.dims) 2) +
                i * max ((1 : ℤ).toNat / 2 ^ testTrained.dims) 2))) /
          (((1 : ℤ).toNat : ℚ)),
        (∑ k ∈ Finset.range (1 : ℤ).toNat,
          ((∑ i ∈ Finset.range (2 ^ testTrained.dims),
            Vegas.integ_bin_value testTrained 2
              (max ((1 : ℤ).toNat / 2 ^ testTrained.dims) 2) testBins
              ((Vegas.get_next_index · 2)^[i] (List.replicate testTrained.dims 0))
              (testTrained.rngPos +
                k * (2 ^ testTrained.dims * max ((1 : ℤ).toNat / 2 ^ testTrained.dims) 2) +
                i * max ((1 : ℤ).toNat / 2 ^ testTrained.dims) 2)) -
           (∑ j ∈ Finset.range (1 : ℤ).toNat,
            (∑ i ∈ Finset.range (2 ^ testTrained.dims),
              Vegas.integ_bin_value testTrained 2
                (max ((1 : ℤ).toNat / 2 ^ testTrained.dims) 2) testBins
                ((Vegas.get_next_index · 2)^[i] (List.replicate testTrained.dims 0))
                (testTrained.rngPos +
                  j * (2 ^ testTrained.dims * max ((1 : ℤ).toNat / 2 ^ testTrained.dims) 2) +
                  i * max ((1 : ℤ).toNat / 2 ^ testTrained.dims) 2))) /
            (((1 : ℤ).toNat : ℚ))) ^ 2) / (((1 : ℤ).toNat : ℚ))),
       testTrained.rngPos +
         (1 : ℤ).toNat *
           (2 ^ testTrained.dims * max ((1 : ℤ).toNat / 2 ^ testTrained.dims) 2)) :=
  ⟨rfl, by decide,
    c6_integrate_result testTrained 1 1 2 testBins rfl (by decide) (by decide)⟩
